import Mathlib

/-!
# Verification of the CrossProduct puzzle engine

A shallow embedding of the CrossProduct puzzle solver: `fill_row` enumerates the
rows of digits with a prescribed product, `solutions` backtracks over the rows of
a puzzle while dividing the column products elementwise, `solve` takes the first
solution, `well_formed` tests uniqueness, and `table_puzzle` derives the puzzle
satisfied by a given table.

Numeric model: the source works with arbitrary-precision integers for the row
products and with elementwise quotients of the column products.  The embedding
uses `ℤ` for row products and exact rationals `ℚ` for the column products (the
source obtains these quotients as IEEE doubles via `numpy.divide`; on every value
reachable in the statements proved here the double computation is exact, and the
floating-point rounding of the source's division-based integrality test is
modelled separately and exactly by `roundDouble`/`pyDivIsInteger` below).
-/

namespace CrossProduct

set_option maxRecDepth 8000

attribute [local semireducible] Rat.mul Rat.inv Rat.sub Rat.add

/-- A `Row` is a sequence of digits, e.g. `(7, 6, 5)`. -/
abbrev Row := List ℕ

/-- A `Table` is a list of rows filling the grid. -/
abbrev Table := List Row

/-- `Puzzle = namedtuple('Puzzle', 'row_prods, col_prods')`.  Row products are the
caller's integers; column products are the exact values of the elementwise
quotients formed by the solver, hence rationals. -/
structure Puzzle where
  row_prods : List ℤ
  col_prods : List ℚ
deriving DecidableEq

/-- The digit candidates `range(1, 10)` iterated by `fill_row`. -/
def digitRange : List ℕ := [1, 2, 3, 4, 5, 6, 7, 8, 9]

/-- `fill_row(product, k)`: all tuples of `k` digits that multiply to `product`.

    def fill_row(product, k=3) -> Set[Row]:
        return ({()}   if k == 0 and product == 1 else
                set()  if k == 0 and product != 1 else
                {(d, *rest) for d in range(1, 10)
                 if (product / d).is_integer()
                 for rest in fill_row(product // d, k - 1)})

This is the *idealised* semantics: the source's test `(product / d)
.is_integer()` is read as the exact divisibility test `product % d = 0`.  The
program's actual floating-point semantics, rounding and `OverflowError`
included, is `fill_rowFloat` / `fill_rowReal` below; the two agree exactly
while `0 ≤ product < 2 ^ 50` (`fill_rowFloat_eq_fill_row`,
`fill_rowReal_eq_ideal`) and diverge beyond (`c2_counterexample`).  The Python
set is embedded as a duplicate-free list in ascending digit order. -/
def fill_row (product : ℤ) : ℕ → List Row
  | 0 => if product = 1 then [[]] else []
  | k + 1 =>
      digitRange.flatMap fun d =>
        if product % (d : ℤ) = 0 then
          (fill_row (product / (d : ℤ)) k).map fun rest => d :: rest
        else []

/-- The elementwise quotient `numpy.divide(col_prods, row1)`, with the float64
quotients idealised as exact rationals.  The float64 value is exact whenever
the dividend is an integer below `2 ^ 53` and the division is exact; for
non-exact divisions only the integrality verdict of the quotient is consumed
by the solver's guard, and every statement below exercises that verdict only
where it agrees with the exact one (column products below `2 ^ 50`, or digit
by digit quotients of values already checked integral). -/
def divideCols (cols : List ℚ) (row : Row) : List ℚ :=
  List.zipWith (fun (c : ℚ) (d : ℕ) => c / (d : ℚ)) cols row

/-- The body of `solutions`, recursing on the list of row products:

    def solutions(puzzle) -> Iterable[Table]:
        row_prods, col_prods = puzzle
        if not row_prods and all(c == 1 for c in col_prods):
            yield []
        elif row_prods and all(c == int(c) for c in col_prods):
            for row1 in fill_row(row_prods[0], len(col_prods)):
                for rows in solutions(Puzzle(row_prods[1:], divide(col_prods, row1))):
                    yield [row1, *rows]

`c == int(c)` on an exact rational is `c.den = 1`.  The lazily yielded sequence
is embedded as the list of its elements.  This is the *idealised* semantics
(exact row enumerator); the program's floating-point semantics is
`solutionsFloatAux` / `solutionsRealAux` below, and the two agree exactly
while every row product lies in `[0, 2 ^ 50)` (`solutionsReal_eq_ideal`). -/
def solutionsAux : List ℤ → List ℚ → List Table
  | [], cols => if cols.all fun c => c == 1 then [[]] else []
  | rp :: rps, cols =>
      if cols.all fun c => c.den == 1 then
        (fill_row rp cols.length).flatMap fun row1 =>
          (solutionsAux rps (divideCols cols row1)).map fun rows => row1 :: rows
      else []

/-- `solutions(puzzle)`: every table solving the puzzle. -/
def solutions (p : Puzzle) : List Table :=
  solutionsAux p.row_prods p.col_prods

/-- `def solve(puzzle): return next(solutions(puzzle), None)`. -/
def solve (p : Puzzle) : Option Table :=
  (solutions p).head?

/-- `well_formed(puzzle)`: pulls the first two elements of `solutions(puzzle)`
and returns `first is not None and second is None`. -/
def well_formed (p : Puzzle) : Bool :=
  (solutions p)[0]?.isSome && (solutions p)[1]?.isNone

/-- `numpy.transpose(table)` restricted to rectangular tables (the only shape the
source applies it to): the `c`-th row of the result collects the `c`-th entry of
every row, and the number of result rows is the common row length. -/
def transposeT (t : Table) : Table :=
  (List.range (t.headD []).length).map fun c => t.map fun row => row.getD c 1

/-- `table_puzzle(table)`: the puzzle whose row products and column products are
those of the given table.

    def table_puzzle(table) -> Puzzle:
        return Puzzle([prod(row) for row in table],
                      [prod(col) for col in transpose(table)])

This is the *idealised* semantics with exact products; the source's
`numpy.prod` wraps silently at `int64`, which `table_puzzleReal` models, and
the two agree exactly while every product stays below `2 ^ 63`
(`table_puzzleReal_eq`) and diverge beyond (`c8_counterexample`). -/
def table_puzzle (t : Table) : Puzzle :=
  ⟨t.map fun row => ((row.prod : ℕ) : ℤ),
   (transposeT t).map fun col => ((col.prod : ℕ) : ℚ)⟩

/-- The digits of column `c` of a table, top to bottom. -/
def colOf (t : Table) (c : ℕ) : Row :=
  t.map fun row => row.getD c 1

/-- A table satisfies the constraints `rps` (row products) and `cols` (column
products): one row per row product, each row as long as the column-product list
with entries in `[1, 9]`, and the row and column digit products match. -/
def satisfiesAux (rps : List ℤ) (cols : List ℚ) (t : Table) : Prop :=
  t.length = rps.length ∧
  (∀ row ∈ t, row.length = cols.length ∧ ∀ d ∈ row, 1 ≤ d ∧ d ≤ 9) ∧
  (∀ r < rps.length, ((t.getD r []).prod : ℤ) = rps.getD r 0) ∧
  (∀ c < cols.length, ((colOf t c).prod : ℚ) = cols.getD c 0)

/-- A table satisfies a puzzle. -/
def satisfies (p : Puzzle) (t : Table) : Prop :=
  satisfiesAux p.row_prods p.col_prods t

instance (rps : List ℤ) (cols : List ℚ) (t : Table) : Decidable (satisfiesAux rps cols t) :=
  inferInstanceAs (Decidable (t.length = rps.length ∧
    (∀ row ∈ t, row.length = cols.length ∧ ∀ d ∈ row, 1 ≤ d ∧ d ≤ 9) ∧
    (∀ r < rps.length, ((t.getD r []).prod : ℤ) = rps.getD r 0) ∧
    (∀ c < cols.length, ((colOf t c).prod : ℚ) = cols.getD c 0)))

instance (p : Puzzle) (t : Table) : Decidable (satisfies p t) :=
  inferInstanceAs (Decidable (satisfiesAux p.row_prods p.col_prods t))

/-- Sequence a list of optional values, aborting on the first `none` (used only
to state the fuel-indexed variants of the recursive solver functions). -/
def allSome {α : Type} : List (Option α) → Option (List α)
  | [] => some []
  | o :: rest => do
      let x ← o
      let xs ← allSome rest
      pure (x :: xs)

/-- Fuel-indexed variant of `fill_row`: every recursive call consumes one unit
of fuel and exhausted fuel aborts with `none`.  `fill_rowFuel_spec` shows that
fuel `k + 1` always suffices, i.e. the recursion strictly decreases `k` down to
the `k = 0` base cases. -/
def fill_rowFuel : ℕ → ℤ → ℕ → Option (List Row)
  | 0, _, _ => none
  | _ + 1, product, 0 => some (if product = 1 then [[]] else [])
  | fuel + 1, product, k + 1 =>
      (allSome (digitRange.map fun (d : ℕ) =>
        if product % (d : ℤ) = 0 then
          (fill_rowFuel fuel (product / (d : ℤ)) k).map fun L =>
            L.map fun rest => d :: rest
        else some [])).map List.flatten

/-- Fuel-indexed variant of `solutions`: one unit of fuel per recursive
descent into the remaining row products.  `solutionsFuel_spec` shows that fuel
`#row_prods + 1` always suffices: the recursion depth equals the number of row
products. -/
def solutionsFuel : ℕ → List ℤ → List ℚ → Option (List Table)
  | 0, _, _ => none
  | _ + 1, [], cols => some (if cols.all fun c => c == 1 then [[]] else [])
  | fuel + 1, rp :: rps, cols =>
      if cols.all fun c => c.den == 1 then
        (allSome ((fill_row rp cols.length).map fun row1 =>
          (solutionsFuel fuel rps (divideCols cols row1)).map fun L =>
            L.map fun rows => row1 :: rows)).map List.flatten
      else some []

/-- Base-2 integer logarithm by repeated halving with explicit fuel (structural
recursion keeps it kernel-computable; 1100 units of fuel cover every value in
the IEEE-754 double range). -/
def log2Fuel : ℕ → ℕ → ℕ
  | 0, _ => 0
  | fuel + 1, n => if n < 2 then 0 else log2Fuel fuel (n / 2) + 1

/-- `⌊log₂ n⌋` for `1 ≤ n < 2 ^ 1100` (and `0` below `1`). -/
def natLog2 (n : ℕ) : ℕ := log2Fuel 1100 n

/-- The unit in the last place of an IEEE-754 double at the binade of `q ≥ 1`:
`2 ^ (⌊log₂ q⌋ - 52)`, written as a quotient of natural powers so that the
exponent may be negative. -/
def ulpOf (q : ℚ) : ℚ :=
  ((2 ^ natLog2 ⌊q⌋₊ : ℕ) : ℚ) / ((2 ^ 52 : ℕ) : ℚ)

/-- Round-to-nearest IEEE-754 double of a rational `q ≥ 1` in the normal range
(`q < 2 ^ 1024`): `q` is rounded to the nearest multiple of the unit in the
last place at its binade.  (Ties are rounded upward here while IEEE rounds them
to even; the two verdicts differ only at exact ties, where both candidate
doubles are integral multiples of the ulp, and only integrality of the result
is consumed below.) -/
def roundDouble (q : ℚ) : ℚ :=
  ((round (q / ulpOf q) : ℤ) : ℚ) * ulpOf q

/-- The test `(product / d).is_integer()` performed by `fill_row` in the
source: Python's true division of arbitrary-precision integers produces the
nearest IEEE-754 double of the exact quotient, and `.is_integer()` asks
whether that double is an integer. -/
def pyDivIsInteger (p d : ℤ) : Bool :=
  (roundDouble ((p : ℚ) / (d : ℚ))).den == 1

/-- The `OverflowError` raised by Python's `p / d` on arbitrary-precision
integers: the division faults exactly when the correctly rounded quotient
falls outside the finite double range, i.e. reaches magnitude `2 ^ 1024`. -/
def pyOverflow (p : ℤ) (d : ℕ) : Bool :=
  decide ((((2 ^ 1024 : ℕ) : ℚ)) ≤ |roundDouble ((p : ℚ) / (d : ℚ))|)

/-- The program's `fill_row` with its floating-point semantics: `none` models an
uncaught `OverflowError` escaping from `(product / d)` (evaluated for the digits
in ascending order, aborting at the first fault, as the source's set
comprehension does); on `some` the digit test is the float test
`(product / d).is_integer()` and the recursion uses Python's floor division
`product // d` (Euclidean division here, which coincides with floor division
for the positive digit divisors). -/
def fill_rowReal (product : ℤ) : ℕ → Option (List Row)
  | 0 => some (if product = 1 then [[]] else [])
  | k + 1 =>
      (allSome (digitRange.map fun (d : ℕ) =>
        if pyOverflow product d then none
        else if pyDivIsInteger product (d : ℤ) then
          (fill_rowReal (product / (d : ℤ)) k).map fun L =>
            L.map fun rest => d :: rest
        else some [])).map List.flatten

/-- The chain of float divisibility verdicts along one candidate row: the row is
produced by the program's `fill_row` exactly when every prefix division passes
`(product / d).is_integer()` and the floor quotients end at `1`. -/
def realRowOK : ℤ → List ℕ → Bool
  | product, [] => product == 1
  | product, d :: rest =>
      pyDivIsInteger product (d : ℤ) && realRowOK (product / (d : ℤ)) rest

/-- The value computed by the program's `fill_row` whenever no `OverflowError`
occurs: identical to `fill_rowReal` with the fault path removed
(`fill_rowReal_eq_float`), and identical to the idealised `fill_row` once every
quotient lies in the float-exact regime (`fill_rowFloat_eq_fill_row`). -/
def fill_rowFloat (product : ℤ) : ℕ → List Row
  | 0 => if product = 1 then [[]] else []
  | k + 1 =>
      digitRange.flatMap fun d =>
        if pyDivIsInteger product (d : ℤ) then
          (fill_rowFloat (product / (d : ℤ)) k).map fun rest => d :: rest
        else []

/-- The program's `solutions` with the floating-point semantics of its row
enumerator: `none` models an `OverflowError` escaping from `fill_row` (the
column quotients themselves are kept as exact rationals, see `divideCols`;
every statement below exercises them only where the float64 verdicts agree
with the exact ones). -/
def solutionsRealAux : List ℤ → List ℚ → Option (List Table)
  | [], cols => some (if cols.all fun c => c == 1 then [[]] else [])
  | rp :: rps, cols =>
      if cols.all fun c => c.den == 1 then
        (fill_rowReal rp cols.length).bind fun L =>
          (allSome (L.map fun row1 =>
            (solutionsRealAux rps (divideCols cols row1)).map fun S =>
              S.map fun rows => row1 :: rows)).map List.flatten
      else some []

/-- The program's `solutions`: `none` models an uncaught `OverflowError`. -/
def solutionsReal (p : Puzzle) : Option (List Table) :=
  solutionsRealAux p.row_prods p.col_prods

/-- The program's `solve`: `none` is a fault, `some none` the no-solution
result. -/
def solveReal (p : Puzzle) : Option (Option Table) :=
  (solutionsReal p).map List.head?

/-- The program's `well_formed`: `none` is a fault. -/
def well_formedReal (p : Puzzle) : Option Bool :=
  (solutionsReal p).map fun S => S[0]?.isSome && S[1]?.isNone

/-- The value computed by the program's `solutions` whenever no fault occurs:
`solutionsRealAux` with the fault path removed (`solutionsRealAux_eq_float`). -/
def solutionsFloatAux : List ℤ → List ℚ → List Table
  | [], cols => if cols.all fun c => c == 1 then [[]] else []
  | rp :: rps, cols =>
      if cols.all fun c => c.den == 1 then
        (fill_rowFloat rp cols.length).flatMap fun row1 =>
          (solutionsFloatAux rps (divideCols cols row1)).map fun rows => row1 :: rows
      else []

/-- Reduction of an integer into the signed 64-bit range `[-2^63, 2^63)`:
`numpy.prod` multiplies in `int64` and silently wraps around on overflow, which
is exactly reduction of the exact product modulo `2 ^ 64`. -/
def int64Wrap (n : ℤ) : ℤ :=
  (n + 2 ^ 63) % 2 ^ 64 - 2 ^ 63

/-- The program's `table_puzzle`: `numpy.prod` returns an `int64`, so every row
and column product is the exact digit product wrapped into `[-2^63, 2^63)`.
It agrees with the exact `table_puzzle` while all products stay below `2 ^ 63`
(`table_puzzleReal_eq`). -/
def table_puzzleReal (t : Table) : Puzzle :=
  ⟨t.map fun row => int64Wrap ((row.prod : ℕ) : ℤ),
   (transposeT t).map fun col => ((int64Wrap ((col.prod : ℕ) : ℤ) : ℤ) : ℚ)⟩

/-- The one digit row of length 21 that the program's float test lets through
for the product `2 ^ 60 + 1`: its true product is `2 · 8 ^ 19 · 4 = 2 ^ 60`. -/
def spuriousRow : Row :=
  [2, 8, 8, 8, 8, 8, 8, 8, 8, 8, 8, 8, 8, 8, 8, 8, 8, 8, 8, 8, 4]

/-- Column products matching `spuriousRow` digit by digit. -/
def wideCols : List ℚ :=
  [2, 8, 8, 8, 8, 8, 8, 8, 8, 8, 8, 8, 8, 8, 8, 8, 8, 8, 8, 8, 4]

/-- A puzzle with non-negative integer products on which the program yields a
non-satisfying table: one row of product `2 ^ 60 + 1` over 21 columns. -/
def spuriousPuzzle : Puzzle :=
  ⟨[2 ^ 60 + 1], wideCols⟩

/-- A satisfiable puzzle on which the program's row enumerator overflows:
one row of product `9 ^ 324` over 324 columns, solved by a row of 324 nines. -/
def overPuzzle : Puzzle :=
  ⟨[((9 ^ 324 : ℕ) : ℤ)], List.replicate 324 9⟩

/-- The 1×20 all-nines table: its row product `9 ^ 20` exceeds `2 ^ 63` and is
wrapped to a negative `int64` by `numpy.prod`. -/
def nineT : Table :=
  [List.replicate 20 9]

theorem mem_digitRange {d : ℕ} : d ∈ digitRange ↔ 1 ≤ d ∧ d ≤ 9 := by
  simp only [digitRange, List.mem_cons, List.not_mem_nil, or_false]
  omega

/-- Characterisation of `fill_row`: it contains exactly the length-`k` digit rows
whose product is `product`. -/
theorem mem_fill_row : ∀ (k : ℕ) (product : ℤ) (row : Row),
    row ∈ fill_row product k ↔
      row.length = k ∧ (∀ d ∈ row, 1 ≤ d ∧ d ≤ 9) ∧ (row.prod : ℤ) = product := by
  intro k
  induction k with
  | zero =>
    intro product row
    constructor
    · intro h
      by_cases hp : product = 1
      · rw [fill_row, if_pos hp] at h
        simp only [List.mem_singleton] at h
        subst h
        simp [hp]
      · rw [fill_row, if_neg hp] at h
        exact absurd h (List.not_mem_nil _)
    · rintro ⟨hlen, -, hprod⟩
      rw [List.length_eq_zero] at hlen
      subst hlen
      simp only [List.prod_nil, Nat.cast_one] at hprod
      rw [fill_row, if_pos hprod.symm]
      simp
  | succ k ih =>
    intro product row
    rw [fill_row]
    simp only [List.mem_flatMap]
    constructor
    · rintro ⟨d, hd, hrow⟩
      rw [mem_digitRange] at hd
      by_cases hdvd : product % (d : ℤ) = 0
      · rw [if_pos hdvd] at hrow
        simp only [List.mem_map] at hrow
        obtain ⟨rest, hrest, rfl⟩ := hrow
        obtain ⟨hlen, hdig, hprod⟩ := (ih _ rest).mp hrest
        refine ⟨by simp [hlen], ?_, ?_⟩
        · intro e he
          rcases List.mem_cons.mp he with rfl | he
          · exact hd
          · exact hdig e he
        · have hdvd' : (d : ℤ) ∣ product := Int.dvd_of_emod_eq_zero hdvd
          rw [List.prod_cons, Nat.cast_mul, hprod]
          exact Int.mul_ediv_cancel' hdvd'
      · rw [if_neg hdvd] at hrow
        exact absurd hrow (List.not_mem_nil _)
    · rintro ⟨hlen, hdig, hprod⟩
      match row with
      | [] => simp at hlen
      | d :: rest =>
        have hd : 1 ≤ d ∧ d ≤ 9 := hdig d (List.mem_cons_self ..)
        have hdne : (d : ℤ) ≠ 0 := by
          simp only [ne_eq, Nat.cast_eq_zero]
          omega
        rw [List.prod_cons, Nat.cast_mul] at hprod
        have hdvd : (d : ℤ) ∣ product := ⟨(rest.prod : ℤ), hprod.symm⟩
        refine ⟨d, mem_digitRange.mpr hd, ?_⟩
        rw [if_pos (Int.emod_eq_zero_of_dvd hdvd)]
        simp only [List.mem_map]
        refine ⟨rest, (ih _ rest).mpr ⟨by simpa using hlen, ?_, ?_⟩, rfl⟩
        · intro e he
          exact hdig e (List.mem_cons_of_mem _ he)
        · rw [← hprod, Int.mul_ediv_cancel_left _ hdne]

theorem eq_cons_of_mem_branch {product : ℤ} {k d : ℕ} {x : Row}
    (hx : x ∈ if product % (d : ℤ) = 0 then
        (fill_row (product / (d : ℤ)) k).map fun rest => d :: rest
      else []) : ∃ r, x = d :: r := by
  split at hx
  · obtain ⟨r, -, rfl⟩ := List.mem_map.mp hx
    exact ⟨r, rfl⟩
  · exact absurd hx (List.not_mem_nil _)

/-- `fill_row` never lists the same row twice: distinct leading digits give
disjoint branches and the recursive lists are duplicate-free. -/
theorem fill_row_nodup : ∀ (k : ℕ) (product : ℤ), (fill_row product k).Nodup := by
  intro k
  induction k with
  | zero =>
    intro product
    rw [fill_row]
    split <;> simp
  | succ k ih =>
    intro product
    rw [fill_row]
    apply List.nodup_flatMap.mpr
    constructor
    · intro d _
      split
      · refine (ih _).map fun a b h => ?_
        injection h with h1 h2
      · exact List.nodup_nil
    · have hne : digitRange.Pairwise (· ≠ ·) := by decide
      apply hne.imp
      intro a b hab x hxa hxb
      apply hab
      obtain ⟨ra, rfl⟩ := eq_cons_of_mem_branch hxa
      obtain ⟨rb, hb⟩ := eq_cons_of_mem_branch hxb
      injection hb with h1 h2

theorem length_divideCols {cols : List ℚ} {row : Row} (h : row.length = cols.length) :
    (divideCols cols row).length = cols.length := by
  simp [divideCols, List.length_zipWith, h]

theorem getD_divideCols {cols : List ℚ} {row : Row} {c : ℕ}
    (hc : c < cols.length) (hcr : c < row.length) :
    (divideCols cols row).getD c 0 = cols.getD c 0 / (row.getD c 1 : ℚ) := by
  have hlen : c < (divideCols cols row).length := by
    simp only [divideCols, List.length_zipWith, lt_min_iff]
    exact ⟨hc, hcr⟩
  rw [List.getD_eq_getElem _ _ hlen, List.getD_eq_getElem _ _ hc, List.getD_eq_getElem _ _ hcr]
  unfold divideCols
  exact List.getElem_zipWith ..

/-- Characterisation of `solutions`: `solutionsAux rps cols` contains exactly the
tables satisfying the constraints `rps` and `cols`. -/
theorem mem_solutionsAux : ∀ (rps : List ℤ) (cols : List ℚ) (t : Table),
    t ∈ solutionsAux rps cols ↔ satisfiesAux rps cols t := by
  intro rps
  induction rps with
  | nil =>
    intro cols t
    rw [solutionsAux]
    by_cases hall : (cols.all fun c => c == 1) = true
    · rw [if_pos hall]
      simp only [List.mem_singleton]
      constructor
      · rintro rfl
        refine ⟨rfl, by simp, by simp, fun c hc => ?_⟩
        have h1 : cols[c] = 1 := by
          have := List.all_eq_true.mp hall cols[c] (List.getElem_mem hc)
          exact eq_of_beq this
        rw [List.getD_eq_getElem _ _ hc, h1]
        simp [colOf]
      · rintro ⟨hlen, -, -, -⟩
        exact List.length_eq_zero.mp hlen
    · rw [if_neg hall]
      simp only [List.not_mem_nil, false_iff]
      rintro ⟨hlen, -, -, hcols⟩
      apply hall
      rw [List.all_eq_true]
      intro q hq
      obtain ⟨i, hi, rfl⟩ := List.mem_iff_getElem.mp hq
      have hc := hcols i hi
      rw [List.getD_eq_getElem _ _ hi] at hc
      have ht : t = [] := List.length_eq_zero.mp hlen
      subst ht
      simp only [colOf, List.map_nil, List.prod_nil, Nat.cast_one] at hc
      rw [beq_iff_eq]
      exact hc.symm
  | cons rp rps ih =>
    intro cols t
    rw [solutionsAux]
    by_cases hall : (cols.all fun c => c.den == 1) = true
    · rw [if_pos hall]
      simp only [List.mem_flatMap, List.mem_map]
      constructor
      · rintro ⟨row1, hrow1, rest, hrest, rfl⟩
        obtain ⟨h1len, h1dig, h1prod⟩ := (mem_fill_row _ _ _).mp hrow1
        obtain ⟨hrlen, hrrows, hrrp, hrcols⟩ := (ih _ rest).mp hrest
        have hsublen : (divideCols cols row1).length = cols.length := length_divideCols h1len
        refine ⟨?_, ?_, ?_, ?_⟩
        · simp [hrlen]
        · intro row hrow
          rcases List.mem_cons.mp hrow with rfl | hrow
          · exact ⟨h1len, h1dig⟩
          · have h := hrrows row hrow
            rw [hsublen] at h
            exact h
        · intro r hr
          match r with
          | 0 => simpa using h1prod
          | r + 1 =>
            have hr' : r < rps.length := by simpa using hr
            simpa [List.getD_cons_succ] using hrrp r hr'
        · intro c hc
          have hc1 : c < row1.length := h1len ▸ hc
          have h := hrcols c (hsublen ▸ hc)
          rw [getD_divideCols hc hc1] at h
          have hd1 : 1 ≤ row1.getD c 1 := by
            rw [List.getD_eq_getElem _ _ hc1]
            exact (h1dig _ (List.getElem_mem hc1)).1
          have hdne : ((row1.getD c 1 : ℕ) : ℚ) ≠ 0 := by
            rw [Nat.cast_ne_zero]
            omega
          have hcol : colOf (row1 :: rest) c = row1.getD c 1 :: colOf rest c := rfl
          rw [hcol, List.prod_cons, Nat.cast_mul, h, mul_comm, div_mul_cancel₀ _ hdne]
      · rintro ⟨hlen, hrows, hrp, hcols⟩
        match t with
        | [] => simp at hlen
        | row1 :: rest =>
          have hlen' : rest.length = rps.length := by simpa using hlen
          obtain ⟨h1len, h1dig⟩ := hrows row1 (List.mem_cons_self ..)
          have h1prod : (row1.prod : ℤ) = rp := by simpa using hrp 0 (by simp)
          have hsublen : (divideCols cols row1).length = cols.length := length_divideCols h1len
          refine ⟨row1, (mem_fill_row _ _ _).mpr ⟨h1len, h1dig, h1prod⟩, rest, ?_, rfl⟩
          apply (ih _ rest).mpr
          refine ⟨hlen', ?_, ?_, ?_⟩
          · intro row hrow
            have h := hrows row (List.mem_cons_of_mem _ hrow)
            rw [← hsublen] at h
            exact h
          · intro r hr
            simpa [List.getD_cons_succ] using hrp (r + 1) (by simpa using hr)
          · intro c hc
            have hc' : c < cols.length := hsublen ▸ hc
            have hc1 : c < row1.length := h1len ▸ hc'
            rw [getD_divideCols hc' hc1]
            have h := hcols c hc'
            have hcol : colOf (row1 :: rest) c = row1.getD c 1 :: colOf rest c := rfl
            rw [hcol, List.prod_cons, Nat.cast_mul] at h
            have hd1 : 1 ≤ row1.getD c 1 := by
              rw [List.getD_eq_getElem _ _ hc1]
              exact (h1dig _ (List.getElem_mem hc1)).1
            have hdne : ((row1.getD c 1 : ℕ) : ℚ) ≠ 0 := by
              rw [Nat.cast_ne_zero]
              omega
            rw [eq_div_iff hdne, mul_comm]
            exact h
    · rw [if_neg hall]
      simp only [List.not_mem_nil, false_iff]
      rintro ⟨hlen, hrows, hrp, hcols⟩
      apply hall
      rw [List.all_eq_true]
      intro q hq
      obtain ⟨i, hi, rfl⟩ := List.mem_iff_getElem.mp hq
      have hc := hcols i hi
      rw [List.getD_eq_getElem _ _ hi] at hc
      rw [beq_iff_eq, ← hc]
      exact Rat.den_natCast _

theorem eq_cons_of_mem_sol_branch {rps : List ℤ} {cols : List ℚ} {row1 : Row} {x : Table}
    (hx : x ∈ (solutionsAux rps (divideCols cols row1)).map fun rows => row1 :: rows) :
    ∃ r, x = row1 :: r := by
  obtain ⟨r, -, rfl⟩ := List.mem_map.mp hx
  exact ⟨r, rfl⟩

/-- `solutions` never yields the same table twice: the first rows are drawn from
the duplicate-free `fill_row` list and distinct first rows head disjoint
branches. -/
theorem solutionsAux_nodup : ∀ (rps : List ℤ) (cols : List ℚ),
    (solutionsAux rps cols).Nodup := by
  intro rps
  induction rps with
  | nil =>
    intro cols
    rw [solutionsAux]
    split <;> simp
  | cons rp rps ih =>
    intro cols
    rw [solutionsAux]
    split
    · apply List.nodup_flatMap.mpr
      constructor
      · intro row1 _
        refine (ih _).map fun a b h => ?_
        injection h with h1 h2
      · refine List.Pairwise.imp ?_ (fill_row_nodup _ _)
        intro a b hab x hxa hxb
        apply hab
        obtain ⟨ra, rfl⟩ := eq_cons_of_mem_sol_branch hxa
        obtain ⟨rb, hb⟩ := eq_cons_of_mem_sol_branch hxb
        injection hb with h1 h2
    · exact List.nodup_nil

theorem allSome_map_eq_some {α β : Type} (f : α → Option β) (g : α → β) :
    ∀ L : List α, (∀ a ∈ L, f a = some (g a)) → allSome (L.map f) = some (L.map g) := by
  intro L
  induction L with
  | nil => intro _; rfl
  | cons a L ih =>
    intro h
    rw [List.map_cons, List.map_cons, allSome, h a (List.mem_cons_self ..),
      ih fun b hb => h b (List.mem_cons_of_mem _ hb)]
    rfl

theorem log2Fuel_le : ∀ (fuel n b : ℕ), n < 2 ^ (b + 1) → log2Fuel fuel n ≤ b := by
  intro fuel
  induction fuel with
  | zero =>
    intro n b _
    exact Nat.zero_le b
  | succ fuel ih =>
    intro n b h
    rw [log2Fuel]
    split
    · exact Nat.zero_le b
    · rename_i hn
      match b with
      | 0 =>
        exfalso
        rw [pow_one] at h
        omega
      | b + 1 =>
        have hp : (2:ℕ) ^ (b + 1 + 1) = 2 ^ (b + 1) * 2 := pow_succ 2 (b + 1)
        rw [hp] at h
        have hdiv : n / 2 < 2 ^ (b + 1) := by omega
        have := ih (n / 2) b hdiv
        omega

theorem roundDouble_natCast (M : ℕ) (h1 : 1 ≤ M) (h2 : M < 2 ^ 53) :
    roundDouble (M : ℚ) = (M : ℚ) := by
  have hfl : ⌊(M:ℚ)⌋₊ = M := Nat.floor_natCast M
  have he : natLog2 M ≤ 52 := log2Fuel_le 1100 M 52 h2
  have hne : ((2 ^ natLog2 M : ℕ) : ℚ) ≠ 0 := by positivity
  have hne52 : ((2:ℚ) ^ (52:ℕ)) ≠ 0 := by positivity
  have hulp : ulpOf (M:ℚ) = ((2 ^ natLog2 M : ℕ) : ℚ) / ((2 ^ 52 : ℕ) : ℚ) := by
    rw [ulpOf, hfl]
  have hee : 52 - natLog2 M + natLog2 M = 52 := by omega
  have hq : (M:ℚ) / ulpOf (M:ℚ) = ((M * 2 ^ (52 - natLog2 M) : ℕ) : ℚ) := by
    rw [hulp, div_div_eq_mul_div, div_eq_iff hne]
    push_cast
    rw [mul_assoc, ← pow_add, hee]
    norm_num
  have hne52lit : (4503599627370496 : ℚ) ≠ 0 := by norm_num
  rw [roundDouble, hq, round_natCast, hulp]
  push_cast
  rw [← mul_div_assoc, div_eq_iff hne52lit, mul_assoc, ← pow_add, hee]
  norm_num

theorem cast_pow_two (n : ℕ) : ((2 ^ n : ℕ) : ℚ) = (2:ℚ) ^ n := by
  push_cast
  ring

theorem roundDouble_zero : roundDouble 0 = 0 := by decide

/-- Rounding to a double moves a rational of magnitude below `2 ^ (b + 1)` by at
most half an ulp, i.e. by at most `2 ^ b / 2 ^ 53`. -/
theorem abs_roundDouble_sub (q : ℚ) (b : ℕ) (hb : |q| < 2 ^ (b + 1)) :
    |roundDouble q - q| ≤ 2 ^ b / 2 ^ 53 := by
  have hfl : ⌊q⌋₊ < 2 ^ (b + 1) := by
    rcases le_or_lt 0 q with hq | hq
    · rw [Nat.floor_lt hq]
      calc q ≤ |q| := le_abs_self q
        _ < 2 ^ (b + 1) := hb
        _ = ((2 ^ (b + 1) : ℕ) : ℚ) := (cast_pow_two (b + 1)).symm
    · rw [Nat.floor_of_nonpos hq.le]
      positivity
  have he : natLog2 ⌊q⌋₊ ≤ b := log2Fuel_le 1100 _ b hfl
  have hu : (0:ℚ) < ulpOf q := by
    rw [ulpOf]
    positivity
  have hsplit : roundDouble q - q =
      (((round (q / ulpOf q) : ℤ) : ℚ) - q / ulpOf q) * ulpOf q := by
    rw [roundDouble, sub_mul, div_mul_cancel₀ _ hu.ne']
  have habs : |roundDouble q - q| ≤ (1 / 2) * ulpOf q := by
    rw [hsplit, abs_mul, abs_of_pos hu]
    refine mul_le_mul_of_nonneg_right ?_ hu.le
    rw [abs_sub_comm]
    exact abs_sub_round (q / ulpOf q)
  have hub : ulpOf q ≤ (2:ℚ) ^ b / (2:ℚ) ^ (52:ℕ) := by
    rw [ulpOf, cast_pow_two, cast_pow_two]
    exact (div_le_div_iff_of_pos_right (by positivity)).mpr
      (pow_le_pow_right₀ (by norm_num) he)
  calc |roundDouble q - q| ≤ (1 / 2) * ulpOf q := habs
    _ ≤ (1 / 2) * ((2:ℚ) ^ b / (2:ℚ) ^ (52:ℕ)) := by
        exact mul_le_mul_of_nonneg_left hub (by norm_num)
    _ = 2 ^ b / 2 ^ 53 := by
        rw [show (2:ℚ) ^ (53:ℕ) = 2 ^ (52:ℕ) * 2 from pow_succ 2 52]
        field_simp
        ring

/-- Python's integer division never overflows while the dividend stays below
`2 ^ 1000` in magnitude. -/
theorem pyOverflow_false {p : ℤ} (d : ℕ) (hd : 1 ≤ d) (hp : |(p:ℚ)| < 2 ^ 1000) :
    pyOverflow p d = false := by
  have hd1 : (1:ℚ) ≤ (d:ℚ) := by exact_mod_cast hd
  have hqle : |(p:ℚ) / (d:ℚ)| ≤ |(p:ℚ)| := by
    rw [abs_div, abs_of_pos (by linarith : (0:ℚ) < (d:ℚ))]
    exact div_le_self (abs_nonneg _) hd1
  have hqb : |(p:ℚ) / (d:ℚ)| < 2 ^ (999 + 1) := by
    calc |(p:ℚ) / (d:ℚ)| ≤ |(p:ℚ)| := hqle
      _ < 2 ^ 1000 := hp
      _ = 2 ^ (999 + 1) := by norm_num
  have hsub := abs_roundDouble_sub ((p:ℚ) / (d:ℚ)) 999 hqb
  rw [pyOverflow, decide_eq_false_iff_not, not_le, cast_pow_two]
  have h1 : |roundDouble ((p:ℚ) / (d:ℚ))| ≤
      |(p:ℚ) / (d:ℚ)| + |roundDouble ((p:ℚ) / (d:ℚ)) - (p:ℚ) / (d:ℚ)| := by
    calc |roundDouble ((p:ℚ) / (d:ℚ))|
        = |(p:ℚ) / (d:ℚ) + (roundDouble ((p:ℚ) / (d:ℚ)) - (p:ℚ) / (d:ℚ))| := by
          ring_nf
      _ ≤ _ := abs_add _ _
  have h2 : (2:ℚ) ^ (999:ℕ) / 2 ^ (53:ℕ) = 2 ^ (946:ℕ) := by
    rw [div_eq_iff (by positivity), ← pow_add]
  have h3 : (2:ℚ) ^ (1000:ℕ) + 2 ^ (946:ℕ) < 2 ^ (1024:ℕ) := by norm_num
  calc |roundDouble ((p:ℚ) / (d:ℚ))|
      ≤ |(p:ℚ) / (d:ℚ)| + |roundDouble ((p:ℚ) / (d:ℚ)) - (p:ℚ) / (d:ℚ)| := h1
    _ ≤ 2 ^ (1000:ℕ) + 2 ^ (946:ℕ) := by
        have ha : |(p:ℚ) / (d:ℚ)| ≤ 2 ^ (1000:ℕ) := le_of_lt (lt_of_le_of_lt hqle hp)
        have hb2 : |roundDouble ((p:ℚ) / (d:ℚ)) - (p:ℚ) / (d:ℚ)| ≤ 2 ^ (946:ℕ) := by
          rw [← h2]
          exact hsub
        linarith
    _ < 2 ^ (1024:ℕ) := h3

/-- In the float-exact regime `0 ≤ p < 2 ^ 50` the float test of the source
coincides with exact divisibility: a true digit divisor gives an exactly
representable integer quotient, and a non-divisor leaves the quotient at least
`1/9` away from every integer while rounding moves it by at most `1/16`. -/
theorem pyDivIsInteger_iff_dvd {p : ℤ} {d : ℕ} (hp0 : 0 ≤ p) (hp : p < 2 ^ 50)
    (hd1 : 1 ≤ d) (hd9 : d ≤ 9) : pyDivIsInteger p (d:ℤ) = true ↔ (d : ℤ) ∣ p := by
  have hd0 : (0:ℚ) < (d:ℚ) := by
    have : (0:ℕ) < d := by omega
    exact_mod_cast this
  constructor
  · intro h
    by_contra hnd
    have hq0 : (0:ℚ) ≤ (p:ℚ) / (d:ℚ) := by positivity
    have hqlt : |(p:ℚ) / (d:ℚ)| < 2 ^ (49 + 1) := by
      rw [abs_of_nonneg hq0]
      have h1 : (p:ℚ) / (d:ℚ) ≤ (p:ℚ) := div_le_self (by positivity) (by exact_mod_cast hd1)
      have h2 : (p:ℚ) < 2 ^ (50:ℕ) := by exact_mod_cast hp
      calc (p:ℚ) / (d:ℚ) ≤ (p:ℚ) := h1
        _ < 2 ^ (50:ℕ) := h2
        _ = 2 ^ (49 + 1) := by norm_num
    have hdist := abs_roundDouble_sub ((p:ℚ) / (d:ℚ)) 49 hqlt
    have hden : (roundDouble ((p:ℚ) / (d:ℚ))).den = 1 := by
      rw [pyDivIsInteger] at h
      exact eq_of_beq h
    have hz : ((roundDouble ((p:ℚ) / (d:ℚ))).num : ℚ) = roundDouble ((p:ℚ) / (d:ℚ)) :=
      Rat.coe_int_num_of_den_eq_one hden
    have hr1 : 1 ≤ p % (d:ℤ) := by
      have h0 : 0 ≤ p % (d:ℤ) := Int.emod_nonneg p (by omega)
      have hne : p % (d:ℤ) ≠ 0 := fun hr0 => hnd (Int.dvd_of_emod_eq_zero hr0)
      omega
    have hrd : p % (d:ℤ) < (d:ℤ) := Int.emod_lt_of_pos p (by omega)
    have hpdm : p = (d:ℤ) * (p / (d:ℤ)) + p % (d:ℤ) := (Int.ediv_add_emod p (d:ℤ)).symm
    have hq_eq : (p:ℚ) / (d:ℚ) = ((p / (d:ℤ) : ℤ) : ℚ) + ((p % (d:ℤ) : ℤ) : ℚ) / (d:ℚ) := by
      have hc : ((p : ℤ) : ℚ) = ((d:ℕ) : ℚ) * ((p / (d:ℤ) : ℤ) : ℚ) + ((p % (d:ℤ) : ℤ) : ℚ) := by
        exact_mod_cast hpdm
      field_simp
      linear_combination hc
    have hfrac1 : (1:ℚ) / 9 ≤ ((p % (d:ℤ) : ℤ) : ℚ) / (d:ℚ) := by
      rw [div_le_div_iff (by norm_num) hd0]
      have hc1 : (1:ℚ) ≤ ((p % (d:ℤ) : ℤ) : ℚ) := by exact_mod_cast hr1
      have hc2 : (d:ℚ) ≤ 9 := by exact_mod_cast hd9
      nlinarith
    have hfrac2 : ((p % (d:ℤ) : ℤ) : ℚ) / (d:ℚ) ≤ 8 / 9 := by
      rw [div_le_div_iff hd0 (by norm_num)]
      have hc1 : ((p % (d:ℤ) : ℤ) : ℚ) ≤ (d:ℚ) - 1 := by
        have : p % (d:ℤ) ≤ (d:ℤ) - 1 := by omega
        have hcast : ((p % (d:ℤ) : ℤ) : ℚ) ≤ (((d:ℤ) - 1 : ℤ) : ℚ) := by exact_mod_cast this
        push_cast at hcast
        linarith
      have hc2 : (d:ℚ) ≤ 9 := by exact_mod_cast hd9
      nlinarith
    set z : ℤ := (roundDouble ((p:ℚ) / (d:ℚ))).num with hzdef
    set m : ℤ := p / (d:ℤ) with hmdef
    have hdz : (1:ℚ) / 9 ≤ |(p:ℚ) / (d:ℚ) - (z:ℚ)| := by
      rcases le_or_lt (z:ℚ) (m:ℚ) with hzm | hzm
      · have hge : (1:ℚ) / 9 ≤ (p:ℚ) / (d:ℚ) - (z:ℚ) := by
          rw [hq_eq]
          linarith
        calc (1:ℚ) / 9 ≤ (p:ℚ) / (d:ℚ) - (z:ℚ) := hge
          _ ≤ |(p:ℚ) / (d:ℚ) - (z:ℚ)| := le_abs_self _
      · have hz1 : (m:ℚ) + 1 ≤ (z:ℚ) := by
          have : m + 1 ≤ z := by exact_mod_cast hzm
          exact_mod_cast this
        have hge : (1:ℚ) / 9 ≤ (z:ℚ) - (p:ℚ) / (d:ℚ) := by
          rw [hq_eq]
          linarith
        calc (1:ℚ) / 9 ≤ (z:ℚ) - (p:ℚ) / (d:ℚ) := hge
          _ ≤ |(z:ℚ) - (p:ℚ) / (d:ℚ)| := le_abs_self _
          _ = |(p:ℚ) / (d:ℚ) - (z:ℚ)| := abs_sub_comm _ _
    rw [hz] at hdz
    rw [abs_sub_comm] at hdz
    have hsmall : (2:ℚ) ^ (49:ℕ) / 2 ^ (53:ℕ) < 1 / 9 := by norm_num
    linarith
  · intro hdvd
    obtain ⟨m, rfl⟩ := hdvd
    rw [pyDivIsInteger, Int.cast_natCast]
    have hdne : ((d:ℕ) : ℚ) ≠ 0 := by
      rw [Nat.cast_ne_zero]
      omega
    have hm0 : 0 ≤ m := by
      by_contra hm
      push_neg at hm
      have : (d:ℤ) * m < 0 := mul_neg_of_pos_of_neg (by omega) hm
      omega
    rcases Nat.eq_zero_or_pos m.toNat with hm1 | hm1
    · have hmz : m = 0 := by omega
      subst hmz
      have hq : (((d:ℤ) * 0 : ℤ) : ℚ) / ((d:ℕ) : ℚ) = 0 := by
        push_cast
        ring
      rw [hq, roundDouble_zero]
      rfl
    · have hm2 : m < 2 ^ 53 := by
        have hle : m ≤ (d:ℤ) * m := le_mul_of_one_le_left hm0 (by omega)
        have : (d:ℤ) * m < 2 ^ 50 := hp
        have h50 : (2:ℤ) ^ 50 ≤ 2 ^ 53 := by norm_num
        omega
      have hq : (((d:ℤ) * m : ℤ) : ℚ) / ((d:ℕ) : ℚ) = ((m.toNat : ℕ) : ℚ) := by
        push_cast [Int.toNat_of_nonneg hm0]
        rw [mul_div_cancel_left₀ _ hdne]
        exact_mod_cast (Int.toNat_of_nonneg hm0).symm
      rw [hq, roundDouble_natCast m.toNat (by omega) (by omega), Rat.den_natCast]
      rfl

/-- Characterisation of the program's row enumerator (fault-free value): a row
is produced exactly when it has the right length, consists of digits, and its
chain of float divisibility verdicts succeeds down to the quotient `1`. -/
theorem mem_fill_rowFloat : ∀ (k : ℕ) (product : ℤ) (row : Row),
    row ∈ fill_rowFloat product k ↔
      row.length = k ∧ (∀ d ∈ row, 1 ≤ d ∧ d ≤ 9) ∧ realRowOK product row = true := by
  intro k
  induction k with
  | zero =>
    intro product row
    constructor
    · intro h
      by_cases hp : product = 1
      · rw [fill_rowFloat, if_pos hp] at h
        simp only [List.mem_singleton] at h
        subst h
        refine ⟨rfl, by simp, ?_⟩
        simp [realRowOK, hp]
      · rw [fill_rowFloat, if_neg hp] at h
        exact absurd h (List.not_mem_nil _)
    · rintro ⟨hlen, -, hOK⟩
      rw [List.length_eq_zero] at hlen
      subst hlen
      rw [realRowOK] at hOK
      rw [fill_rowFloat, if_pos (eq_of_beq hOK)]
      simp
  | succ k ih =>
    intro product row
    rw [fill_rowFloat]
    simp only [List.mem_flatMap]
    constructor
    · rintro ⟨d, hd, hrow⟩
      rw [mem_digitRange] at hd
      by_cases ht : pyDivIsInteger product (d : ℤ) = true
      · rw [if_pos ht] at hrow
        simp only [List.mem_map] at hrow
        obtain ⟨rest, hrest, rfl⟩ := hrow
        obtain ⟨hlen, hdig, hOK⟩ := (ih _ rest).mp hrest
        refine ⟨by simp [hlen], ?_, ?_⟩
        · intro e he
          rcases List.mem_cons.mp he with rfl | he
          · exact hd
          · exact hdig e he
        · rw [realRowOK, ht, hOK]
          rfl
      · rw [if_neg ht] at hrow
        exact absurd hrow (List.not_mem_nil _)
    · rintro ⟨hlen, hdig, hOK⟩
      match row with
      | [] => simp at hlen
      | d :: rest =>
        have hd : 1 ≤ d ∧ d ≤ 9 := hdig d (List.mem_cons_self ..)
        rw [realRowOK, Bool.and_eq_true] at hOK
        refine ⟨d, mem_digitRange.mpr hd, ?_⟩
        rw [if_pos hOK.1]
        simp only [List.mem_map]
        exact ⟨rest, (ih _ rest).mpr ⟨by simpa using hlen,
          fun e he => hdig e (List.mem_cons_of_mem _ he), hOK.2⟩, rfl⟩

theorem eq_cons_of_mem_branchF {product : ℤ} {k d : ℕ} {x : Row}
    (hx : x ∈ if pyDivIsInteger product (d : ℤ) then
        (fill_rowFloat (product / (d : ℤ)) k).map fun rest => d :: rest
      else []) : ∃ r, x = d :: r := by
  split at hx
  · obtain ⟨r, -, rfl⟩ := List.mem_map.mp hx
    exact ⟨r, rfl⟩
  · exact absurd hx (List.not_mem_nil _)

/-- The program's row enumerator also never produces the same row twice. -/
theorem fill_rowFloat_nodup : ∀ (k : ℕ) (product : ℤ), (fill_rowFloat product k).Nodup := by
  intro k
  induction k with
  | zero =>
    intro product
    rw [fill_rowFloat]
    split <;> simp
  | succ k ih =>
    intro product
    rw [fill_rowFloat]
    apply List.nodup_flatMap.mpr
    constructor
    · intro d _
      split
      · refine (ih _).map fun a b h => ?_
        injection h with h1 h2
      · exact List.nodup_nil
    · have hne : digitRange.Pairwise (· ≠ ·) := by decide
      apply hne.imp
      intro a b hab x hxa hxb
      apply hab
      obtain ⟨ra, rfl⟩ := eq_cons_of_mem_branchF hxa
      obtain ⟨rb, hb⟩ := eq_cons_of_mem_branchF hxb
      injection hb with h1 h2

theorem realRowOK_neg : ∀ (row : List ℕ) (p : ℤ), p < 0 → (∀ d ∈ row, 1 ≤ d) →
    realRowOK p row = false := by
  intro row
  induction row with
  | nil =>
    intro p hp _
    rw [realRowOK]
    exact beq_eq_false_iff_ne.mpr (by omega)
  | cons d rest ih =>
    intro p hp hdig
    rw [realRowOK]
    have hd1 : 1 ≤ d := hdig d (List.mem_cons_self ..)
    have hsub : p / (d : ℤ) < 0 := Int.ediv_neg' hp (by exact_mod_cast hd1)
    rw [ih _ hsub fun e he => hdig e (List.mem_cons_of_mem _ he), Bool.and_false]

/-- No chain of digits can bring a negative product to `1`, so the program's
row enumerator yields nothing for a negative product (just like the idealised
one). -/
theorem fill_rowFloat_neg (k : ℕ) (p : ℤ) (hp : p < 0) : fill_rowFloat p k = [] := by
  rw [List.eq_nil_iff_forall_not_mem]
  intro row hrow
  obtain ⟨-, hdig, hOK⟩ := (mem_fill_rowFloat _ _ _).mp hrow
  rw [realRowOK_neg row p hp fun d hd => (hdig d hd).1] at hOK
  exact Bool.false_ne_true hOK

theorem flatMap_congr_mem {α β : Type} {l : List α} {f g : α → List β}
    (h : ∀ a ∈ l, f a = g a) : l.flatMap f = l.flatMap g := by
  induction l with
  | nil => rfl
  | cons a l ih =>
    rw [List.flatMap_cons, List.flatMap_cons, h a (List.mem_cons_self ..),
      ih fun b hb => h b (List.mem_cons_of_mem _ hb)]

/-- In the float-exact regime `0 ≤ product < 2 ^ 50` the program's row
enumerator computes exactly the idealised `fill_row`. -/
theorem fill_rowFloat_eq_fill_row : ∀ (k : ℕ) (p : ℤ), 0 ≤ p → p < 2 ^ 50 →
    fill_rowFloat p k = fill_row p k := by
  intro k
  induction k with
  | zero =>
    intro p _ _
    rw [fill_rowFloat, fill_row]
  | succ k ih =>
    intro p hp0 hp1
    rw [fill_rowFloat, fill_row]
    apply flatMap_congr_mem
    intro d hd
    obtain ⟨hd1, hd9⟩ := mem_digitRange.mp hd
    have hiff := pyDivIsInteger_iff_dvd hp0 hp1 hd1 hd9
    by_cases hdvd : (d : ℤ) ∣ p
    · rw [if_pos (hiff.mpr hdvd), if_pos (Int.emod_eq_zero_of_dvd hdvd),
        ih _ (Int.ediv_nonneg hp0 (by positivity))
          (lt_of_le_of_lt (Int.ediv_le_self _ hp0) hp1)]
    · rw [if_neg fun h => hdvd (hiff.mp h),
        if_neg fun h => hdvd (Int.dvd_of_emod_eq_zero h)]

theorem abs_bound_ediv {p : ℤ} (d : ℕ) (hlo : -(2 ^ 1000) < p) (hhi : p < 2 ^ 1000) :
    -(2 ^ 1000) < p / (d : ℤ) ∧ p / (d : ℤ) < 2 ^ 1000 := by
  have h1 : |p| < 2 ^ 1000 := abs_lt.mpr ⟨by omega, hhi⟩
  have h2 : |p / (d : ℤ)| < 2 ^ 1000 := lt_of_le_of_lt (Int.abs_ediv_le_abs p (d : ℤ)) h1
  have := abs_lt.mp h2
  exact ⟨by omega, this.2⟩

/-- While the product stays below `2 ^ 1000` in magnitude, no quotient can
overflow and the program's row enumerator never faults: it computes the
fault-free value `fill_rowFloat`. -/
theorem fill_rowReal_eq_float : ∀ (k : ℕ) (p : ℤ), -(2 ^ 1000) < p → p < 2 ^ 1000 →
    fill_rowReal p k = some (fill_rowFloat p k) := by
  intro k
  induction k with
  | zero =>
    intro p _ _
    rw [fill_rowReal, fill_rowFloat]
  | succ k ih =>
    intro p hlo hhi
    have hq : |(p:ℚ)| < 2 ^ 1000 := by
      rw [abs_lt]
      constructor
      · exact_mod_cast hlo
      · exact_mod_cast hhi
    rw [fill_rowReal]
    have hall := allSome_map_eq_some
      (fun (d : ℕ) =>
        if pyOverflow p d then none
        else if pyDivIsInteger p (d : ℤ) then
          (fill_rowReal (p / (d : ℤ)) k).map fun L => L.map fun rest => d :: rest
        else some [])
      (fun (d : ℕ) =>
        if pyDivIsInteger p (d : ℤ) then
          (fill_rowFloat (p / (d : ℤ)) k).map fun rest => d :: rest
        else [])
      digitRange ?_
    · rw [hall, Option.map_some', fill_rowFloat, List.flatMap_def]
    · intro d hd
      simp only
      obtain ⟨hd1, hd9⟩ := mem_digitRange.mp hd
      rw [pyOverflow_false d hd1 hq, if_neg Bool.false_ne_true]
      by_cases ht : pyDivIsInteger p (d : ℤ) = true
      · obtain ⟨hlo', hhi'⟩ := abs_bound_ediv d hlo hhi
        rw [if_pos ht, if_pos ht, ih _ hlo' hhi', Option.map_some']
      · rw [if_neg ht, if_neg ht]

/-- While every row product stays below `2 ^ 1000` in magnitude the program's
`solutions` never faults: it computes the fault-free value
`solutionsFloatAux`. -/
theorem solutionsRealAux_eq_float : ∀ (rps : List ℤ) (cols : List ℚ),
    (∀ r ∈ rps, -(2 ^ 1000) < r ∧ r < 2 ^ 1000) →
    solutionsRealAux rps cols = some (solutionsFloatAux rps cols) := by
  intro rps
  induction rps with
  | nil =>
    intro cols _
    rw [solutionsRealAux, solutionsFloatAux]
  | cons rp rps ih =>
    intro cols hb
    rw [solutionsRealAux, solutionsFloatAux]
    by_cases hall : (cols.all fun c => c.den == 1) = true
    · rw [if_pos hall, if_pos hall]
      obtain ⟨h1, h2⟩ := hb rp (List.mem_cons_self ..)
      rw [fill_rowReal_eq_float _ _ h1 h2, Option.some_bind]
      have hmap := allSome_map_eq_some
        (fun row1 => (solutionsRealAux rps (divideCols cols row1)).map fun S =>
          S.map fun rows => row1 :: rows)
        (fun row1 => (solutionsFloatAux rps (divideCols cols row1)).map fun rows =>
          row1 :: rows)
        (fill_rowFloat rp cols.length) ?_
      · rw [hmap, Option.map_some', List.flatMap_def]
      · intro row1 _
        simp only
        rw [ih _ fun r hr => hb r (List.mem_cons_of_mem _ hr), Option.map_some']
    · rw [if_neg hall, if_neg hall]

/-- In the float-exact regime (all row products in `[0, 2 ^ 50)`) the fault-free
value of the program's `solutions` is exactly the idealised one. -/
theorem solutionsFloatAux_eq : ∀ (rps : List ℤ) (cols : List ℚ),
    (∀ r ∈ rps, 0 ≤ r ∧ r < 2 ^ 50) →
    solutionsFloatAux rps cols = solutionsAux rps cols := by
  intro rps
  induction rps with
  | nil =>
    intro cols _
    rw [solutionsFloatAux, solutionsAux]
  | cons rp rps ih =>
    intro cols hb
    rw [solutionsFloatAux, solutionsAux]
    by_cases hall : (cols.all fun c => c.den == 1) = true
    · rw [if_pos hall, if_pos hall]
      obtain ⟨h1, h2⟩ := hb rp (List.mem_cons_self ..)
      rw [fill_rowFloat_eq_fill_row _ _ h1 h2]
      apply flatMap_congr_mem
      intro row1 _
      rw [ih _ fun r hr => hb r (List.mem_cons_of_mem _ hr)]
    · rw [if_neg hall, if_neg hall]

theorem row_bound_wide {r : ℤ} (h0 : 0 ≤ r) (h1 : r < 2 ^ 50) :
    -(2 ^ 1000) < r ∧ r < 2 ^ 1000 := by
  have ha : (2:ℤ) ^ 50 ≤ 2 ^ 1000 := by norm_num
  have hb : (0:ℤ) < 2 ^ 1000 := by positivity
  omega

/-- In the float-exact regime the program's `solutions` neither faults nor
deviates from the idealised `solutions`. -/
theorem solutionsReal_eq_ideal {p : Puzzle}
    (hb : ∀ r ∈ p.row_prods, 0 ≤ r ∧ r < 2 ^ 50) :
    solutionsReal p = some (solutions p) := by
  rw [solutionsReal, solutions,
    solutionsRealAux_eq_float _ _ fun r hr => row_bound_wide (hb r hr).1 (hb r hr).2,
    solutionsFloatAux_eq _ _ hb]

/-- In the float-exact regime the program's `fill_row` neither faults nor
deviates from the idealised `fill_row`. -/
theorem fill_rowReal_eq_ideal (k : ℕ) (p : ℤ) (h0 : 0 ≤ p) (h1 : p < 2 ^ 50) :
    fill_rowReal p k = some (fill_row p k) := by
  rw [fill_rowReal_eq_float k p (row_bound_wide h0 h1).1 (row_bound_wide h0 h1).2,
    fill_rowFloat_eq_fill_row k p h0 h1]

theorem flatMap_eq_singleton {α β : Type} [DecidableEq α] {L : List α} {g : α → List β}
    {s : α} {t0 : β} (hnd : L.Nodup) (hs : s ∈ L)
    (hg : ∀ x ∈ L, g x = if x = s then [t0] else []) :
    L.flatMap g = [t0] := by
  induction L with
  | nil => exact absurd hs (List.not_mem_nil _)
  | cons a L ih =>
    obtain ⟨hna, hndL⟩ := List.nodup_cons.mp hnd
    rw [List.flatMap_cons]
    rcases List.mem_cons.mp hs with rfl | hsL
    · rw [hg s (List.mem_cons_self ..), if_pos rfl]
      have hrest : L.flatMap g = [] := by
        apply List.flatMap_eq_nil_iff.mpr
        intro x hx
        rw [hg x (List.mem_cons_of_mem _ hx), if_neg]
        intro hxa
        exact hna (hxa ▸ hx)
      rw [hrest, List.append_nil]
    · have hne : a ≠ s := fun h => hna (h ▸ hsL)
      rw [hg a (List.mem_cons_self ..), if_neg hne, List.nil_append]
      exact ih hndL hsL fun x hx => hg x (List.mem_cons_of_mem _ hx)

theorem wideCols_map : spuriousRow.map (fun d => ((d : ℕ) : ℚ)) = wideCols := by decide

/-- A digit row passes the final column check of `spuriousPuzzle` exactly when
it matches the column products digit by digit, i.e. when it is
`spuriousRow`. -/
theorem all_div_one_wide {row : Row} (hlen : row.length = wideCols.length)
    (hdig : ∀ d ∈ row, 1 ≤ d ∧ d ≤ 9) :
    (((divideCols wideCols row).all fun c => c == 1) = true) ↔ row = spuriousRow := by
  constructor
  · intro h
    have hmaps : row.map (fun d => ((d : ℕ) : ℚ)) = wideCols := by
      apply List.ext_getElem (by simp [hlen])
      intro i hi1 hi2
      rw [List.getElem_map]
      have hir : i < row.length := by simpa using hi1
      have hidC : i < (divideCols wideCols row).length := by
        simp only [divideCols, List.length_zipWith, lt_min_iff]
        exact ⟨hi2, hir⟩
      have hmem := List.all_eq_true.mp h _ (List.getElem_mem hidC)
      have hval : (divideCols wideCols row)[i] = wideCols[i] / ((row[i] : ℕ) : ℚ) := by
        unfold divideCols
        exact List.getElem_zipWith ..
      rw [hval] at hmem
      have hrne : ((row[i] : ℕ) : ℚ) ≠ 0 := by
        have h1 := (hdig _ (List.getElem_mem hir)).1
        rw [Nat.cast_ne_zero]
        omega
      exact ((div_eq_one_iff_eq hrne).mp (eq_of_beq hmem)).symm
    have hspu : row.map (fun d => ((d : ℕ) : ℚ)) = spuriousRow.map (fun d => ((d : ℕ) : ℚ)) := by
      rw [hmaps, wideCols_map]
    exact List.map_injective_iff.mpr (fun a b hab => by exact_mod_cast hab) hspu
  · rintro rfl
    decide

/-- The fault-free value of the program's `solutions` on `spuriousPuzzle`: the
float test lets many candidate first rows through, but the final column check
keeps exactly the one row matching the column products, so the program yields
exactly one table — whose row product is `2 ^ 60`, not `2 ^ 60 + 1`. -/
theorem solutionsFloat_spurious :
    solutionsFloatAux [2 ^ 60 + 1] wideCols = [[spuriousRow]] := by
  rw [solutionsFloatAux, if_pos (by decide)]
  have hs : spuriousRow ∈ fill_rowFloat (2 ^ 60 + 1) wideCols.length := by
    apply (mem_fill_rowFloat _ _ _).mpr
    exact ⟨by decide, by decide, by decide⟩
  apply flatMap_eq_singleton (fill_rowFloat_nodup _ _) hs
  intro x hx
  obtain ⟨hxlen, hxdig, -⟩ := (mem_fill_rowFloat _ _ _).mp hx
  rw [solutionsFloatAux]
  by_cases hall : ((divideCols wideCols x).all fun c => c == 1) = true
  · have hxs : x = spuriousRow := (all_div_one_wide hxlen hxdig).mp hall
    subst hxs
    rw [if_pos hall, if_pos rfl]
    rfl
  · have hxs : x ≠ spuriousRow := fun h => hall ((all_div_one_wide hxlen hxdig).mpr h)
    rw [if_neg hall, if_neg hxs]
    rfl

/-- The program's `solutions` on `spuriousPuzzle` terminates without fault and
yields exactly the one spurious table. -/
theorem solutionsReal_spurious : solutionsReal spuriousPuzzle = some [[spuriousRow]] := by
  have h1 : solutionsReal spuriousPuzzle =
      some (solutionsFloatAux [2 ^ 60 + 1] wideCols) := by
    apply solutionsRealAux_eq_float
    intro r hr
    rw [show spuriousPuzzle.row_prods = [2 ^ 60 + 1] from rfl, List.mem_singleton] at hr
    subst hr
    constructor
    · have h1 : (0:ℤ) < 2 ^ 1000 := by positivity
      have h2 : (0:ℤ) ≤ 2 ^ 60 + 1 := by positivity
      omega
    · have h3 : (2:ℤ) ^ 60 + 1 < 2 ^ 1000 := by norm_num
      exact h3
  rw [h1, solutionsFloat_spurious]

/-- Every branch of the search dies on a puzzle containing a negative product:
negative row products cannot be reduced to `1` by digits, and negative column
products can never equal `1` at the base of the recursion. -/
theorem solutionsFloat_neg : ∀ (rps : List ℤ) (cols : List ℚ),
    ((∃ r ∈ rps, r < 0) ∨ ∃ c ∈ cols, c < 0) →
    solutionsFloatAux rps cols = [] := by
  intro rps
  induction rps with
  | nil =>
    intro cols h
    rcases h with ⟨r, hr, -⟩ | ⟨c, hc, hneg⟩
    · exact absurd hr (List.not_mem_nil _)
    · rw [solutionsFloatAux, if_neg]
      intro hall
      have hc1 : c = 1 := eq_of_beq (List.all_eq_true.mp hall c hc)
      rw [hc1] at hneg
      norm_num at hneg
  | cons rp rps ih =>
    intro cols h
    rw [solutionsFloatAux]
    by_cases hall : (cols.all fun c => c.den == 1) = true
    · rw [if_pos hall]
      rcases h with ⟨r, hr, hneg⟩ | hcols
      · rcases List.mem_cons.mp hr with rfl | hr'
        · rw [fill_rowFloat_neg _ _ hneg]
          rfl
        · apply List.flatMap_eq_nil_iff.mpr
          intro row1 _
          rw [ih _ (Or.inl ⟨r, hr', hneg⟩)]
          rfl
      · obtain ⟨c, hc, hneg⟩ := hcols
        apply List.flatMap_eq_nil_iff.mpr
        intro row1 hrow1
        obtain ⟨h1len, h1dig, -⟩ := (mem_fill_rowFloat _ _ _).mp hrow1
        obtain ⟨i, hi, rfl⟩ := List.mem_iff_getElem.mp hc
        have hir : i < row1.length := h1len ▸ hi
        have hd1 : 1 ≤ row1[i] := (h1dig _ (List.getElem_mem hir)).1
        have hsub : cols[i] / ((row1[i] : ℕ) : ℚ) < 0 := by
          apply div_neg_of_neg_of_pos hneg
          have : (0:ℕ) < row1[i] := by omega
          exact_mod_cast this
        have hmem : cols[i] / ((row1[i] : ℕ) : ℚ) ∈ divideCols cols row1 := by
          have hidc : i < (divideCols cols row1).length := by
            simp only [divideCols, List.length_zipWith, lt_min_iff]
            exact ⟨hi, hir⟩
          have hval : (divideCols cols row1)[i] = cols[i] / ((row1[i] : ℕ) : ℚ) := by
            unfold divideCols
            exact List.getElem_zipWith ..
          rw [← hval]
          exact List.getElem_mem hidc
        rw [ih _ (Or.inr ⟨_, hmem, hsub⟩)]
        rfl
    · rw [if_neg hall]

theorem int64Wrap_eq {n : ℤ} (h1 : -(2 ^ 63) ≤ n) (h2 : n < 2 ^ 63) : int64Wrap n = n := by
  have e63 : (2:ℤ) ^ 63 = 9223372036854775808 := by norm_num
  have e64 : (2:ℤ) ^ 64 = 18446744073709551616 := by norm_num
  rw [int64Wrap, e63, e64]
  rw [e63] at h1 h2
  rw [Int.emod_eq_of_lt (by omega) (by omega)]
  omega

/-- While every row and column product of the table stays below `2 ^ 63` the
`int64` products of the program's `table_puzzle` do not wrap and the derived
puzzle is the exact one. -/
theorem table_puzzleReal_eq {t : Table}
    (hrow : ∀ row ∈ t, ((row.prod : ℕ) : ℤ) < 2 ^ 63)
    (hcol : ∀ col ∈ transposeT t, ((col.prod : ℕ) : ℤ) < 2 ^ 63) :
    table_puzzleReal t = table_puzzle t := by
  have hlow : ∀ m : ℕ, -((2:ℤ) ^ 63) ≤ ((m : ℕ) : ℤ) := by
    intro m
    have h1 := Int.natCast_nonneg m
    have h2 : (0:ℤ) ≤ 2 ^ 63 := by positivity
    omega
  have h1 : (t.map fun row => int64Wrap ((row.prod : ℕ) : ℤ)) =
      t.map fun row => ((row.prod : ℕ) : ℤ) := by
    apply List.map_congr_left
    intro row hr
    rw [int64Wrap_eq (hlow _) (hrow row hr)]
  have h2 : ((transposeT t).map fun col => ((int64Wrap ((col.prod : ℕ) : ℤ) : ℤ) : ℚ)) =
      (transposeT t).map fun col => ((col.prod : ℕ) : ℚ) := by
    apply List.map_congr_left
    intro col hc
    rw [int64Wrap_eq (hlow _) (hcol col hc), Int.cast_natCast]
  rw [table_puzzleReal, table_puzzle, h1, h2]

/-- `solutions` lists exactly the tables satisfying the puzzle. -/
theorem mem_solutions {p : Puzzle} {t : Table} : t ∈ solutions p ↔ satisfies p t :=
  mem_solutionsAux p.row_prods p.col_prods t

theorem solutions_nodup (p : Puzzle) : (solutions p).Nodup :=
  solutionsAux_nodup p.row_prods p.col_prods

theorem well_formed_iff_length (p : Puzzle) :
    well_formed p = true ↔ (solutions p).length = 1 := by
  rw [well_formed, Bool.and_eq_true, Option.isSome_iff_ne_none, ne_eq,
    List.getElem?_eq_none_iff, Option.isNone_iff_eq_none, List.getElem?_eq_none_iff]
  omega

theorem solutions_length_one_iff (p : Puzzle) :
    (solutions p).length = 1 ↔ ∃! t, satisfies p t := by
  constructor
  · intro h
    obtain ⟨a, ha⟩ := List.length_eq_one.mp h
    refine ⟨a, mem_solutions.mp (ha ▸ List.mem_singleton_self a), fun y hy => ?_⟩
    have hmem := mem_solutions.mpr hy
    rw [ha, List.mem_singleton] at hmem
    exact hmem
  · rintro ⟨t, ht, huniq⟩
    have hmem : t ∈ solutions p := mem_solutions.mpr ht
    have hnd := solutions_nodup p
    cases hsol : solutions p with
    | nil =>
      rw [hsol] at hmem
      exact absurd hmem (List.not_mem_nil _)
    | cons a l =>
      cases l with
      | nil => rfl
      | cons b l' =>
        exfalso
        have ha : a = t := huniq a (mem_solutions.mp (by rw [hsol]; exact List.mem_cons_self ..))
        have hb : b = t := huniq b (mem_solutions.mp
          (by rw [hsol]; exact List.mem_cons_of_mem _ (List.mem_cons_self ..)))
        rw [hsol] at hnd
        exact (List.nodup_cons.mp hnd).1 (by rw [ha, hb]; exact List.mem_cons_self ..)

theorem fill_row_zero : ∀ k : ℕ, 0 < k → fill_row 0 k = [] := by
  intro k
  induction k with
  | zero => intro h; exact absurd h (lt_irrefl 0)
  | succ k ih =>
    intro _
    rw [fill_row]
    apply List.flatMap_eq_nil_iff.mpr
    intro d _
    rw [if_pos (Int.zero_emod _), Int.zero_ediv]
    cases k with
    | zero => rfl
    | succ k => rw [ih (Nat.succ_pos k)]; rfl

/-- **C2 counterexample.** `fill_row` does not return only rows whose product
is the requested product: at `product = 2 ^ 60 + 1`, `k = 21` the program
faults nowhere yet its result contains `spuriousRow`, whose digit product is
`2 ^ 60 ≠ 2 ^ 60 + 1` — the floating-point test accepts every division along
that row. -/
theorem c2_counterexample :
    fill_rowReal (2 ^ 60 + 1) 21 = some (fill_rowFloat (2 ^ 60 + 1) 21) ∧
    spuriousRow ∈ fill_rowFloat (2 ^ 60 + 1) 21 ∧
    (spuriousRow.prod : ℤ) ≠ 2 ^ 60 + 1 :=
  ⟨fill_rowReal_eq_float 21 _ (by norm_num) (by norm_num),
   (mem_fill_rowFloat 21 _ spuriousRow).mpr ⟨by decide, by decide, by decide⟩,
   by decide⟩

/-- **C2 amended.** For every integer `0 ≤ product < 2 ^ 50` and every
`k ≥ 0` the program's `fill_row` raises no error and returns the set of all
length-`k` digit rows whose product is `product`, each exactly once
(duplicate-free, nothing omitted); for `k = 0` it is the singleton of the
empty row when `product = 1` and empty otherwise. -/
theorem c2_amended (product : ℤ) (k : ℕ) (h0 : 0 ≤ product) (h1 : product < 2 ^ 50) :
    fill_rowReal product k = some (fill_row product k) ∧
    (∀ row : Row, row ∈ fill_row product k ↔
      row.length = k ∧ (∀ d ∈ row, 1 ≤ d ∧ d ≤ 9) ∧ (row.prod : ℤ) = product) ∧
    (fill_row product k).Nodup ∧
    fill_row product 0 = (if product = 1 then [[]] else []) :=
  ⟨fill_rowReal_eq_ideal k product h0 h1,
   fun row => mem_fill_row k product row, fill_row_nodup k product, by rw [fill_row]⟩

theorem c2_amended_witness :
    ((0:ℤ) ≤ 210 ∧ (210:ℤ) < 2 ^ 50) ∧
    (fill_rowReal 210 3 = some (fill_row 210 3) ∧
    (∀ row : Row, row ∈ fill_row 210 3 ↔
      row.length = 3 ∧ (∀ d ∈ row, 1 ≤ d ∧ d ≤ 9) ∧ (row.prod : ℤ) = 210) ∧
    (fill_row 210 3).Nodup ∧
    fill_row 210 0 = (if (210:ℤ) = 1 then [[]] else [])) :=
  ⟨⟨by decide, by decide⟩, c2_amended 210 3 (by decide) (by decide)⟩

/-- **C6.** Zero products are legal inputs yielding no solutions and no
runtime fault: `fill_row 0 k` is empty for every `k > 0`, and solving the
puzzle with row products `[0]` and column products `[0]` returns the
no-solution result. -/
theorem c6_zero_products (k : ℕ) (hk : 0 < k) :
    fill_row 0 k = [] ∧ solve ⟨[0], [0]⟩ = none :=
  ⟨fill_row_zero k hk, by decide⟩

theorem c6_witness : 0 < 1 ∧ (fill_row 0 1 = [] ∧ solve ⟨[0], [0]⟩ = none) :=
  ⟨Nat.one_pos, c6_zero_products 1 Nat.one_pos⟩

theorem count_eq_one_of_nodup_mem :
    ∀ (l : List Table) (t : Table), l.Nodup → t ∈ l → l.count t = 1 := by
  intro l
  induction l with
  | nil =>
    intro t _ ht
    exact absurd ht (List.not_mem_nil _)
  | cons a l ih =>
    intro t hnd ht
    obtain ⟨hna, hndl⟩ := List.nodup_cons.mp hnd
    rcases List.mem_cons.mp ht with rfl | ht
    · rw [List.count_cons_self, List.count_eq_zero_of_not_mem hna]
    · rw [List.count_cons_of_ne, ih t hndl ht]
      intro heq
      exact hna (heq ▸ ht)

theorem take_two_getElem {l l' : List Table} (h : l.take 2 = l'.take 2) :
    l[0]? = l'[0]? ∧ l[1]? = l'[1]? := by
  have h0 : ∀ (m : List Table) (i : ℕ), i < 2 → m[i]? = (m.take 2)[i]? := by
    intro m i hi
    rw [List.getElem?_take, if_pos hi]
  exact ⟨by rw [h0 l 0 (by omega), h, ← h0 l' 0 (by omega)],
         by rw [h0 l 1 (by omega), h, ← h0 l' 1 (by omega)]⟩

/-- Round-trip for the *idealised* `table_puzzle` (exact products): every
rectangular table with all entries digits in `[1, 9]` appears among the
solutions of the puzzle derived from it. -/
theorem mem_solutions_table_puzzle (t : Table) (n : ℕ) (hrect : ∀ row ∈ t, row.length = n)
    (hdig : ∀ row ∈ t, ∀ d ∈ row, 1 ≤ d ∧ d ≤ 9) :
    t ∈ solutions (table_puzzle t) := by
  apply mem_solutions.mpr
  refine ⟨by simp [table_puzzle], ?_, ?_, ?_⟩
  · intro row hrow
    refine ⟨?_, hdig row hrow⟩
    have hcols : (table_puzzle t).col_prods.length = (t.headD []).length := by
      simp [table_puzzle, transposeT]
    rw [hcols]
    match t, hrow with
    | t0 :: trest, hrow =>
      show row.length = ((t0 :: trest).headD []).length
      rw [List.headD_cons, hrect row hrow, hrect t0 (List.mem_cons_self ..)]
  · intro r hr
    have hrlen : r < t.length := by
      simpa [table_puzzle] using hr
    have hmaplen : r < (t.map fun row => ((row.prod : ℕ) : ℤ)).length := by
      simpa using hrlen
    show ((t.getD r []).prod : ℤ) = (t.map fun row => ((row.prod : ℕ) : ℤ)).getD r 0
    rw [List.getD_eq_getElem _ _ hrlen, List.getD_eq_getElem _ _ hmaplen, List.getElem_map]
  · intro c hc
    have hclen : c < (t.headD []).length := by
      simpa [table_puzzle, transposeT] using hc
    show ((colOf t c).prod : ℚ) = ((transposeT t).map fun col => ((col.prod : ℕ) : ℚ)).getD c 0
    have h1 : c < ((transposeT t).map fun col => ((col.prod : ℕ) : ℚ)).length := by
      simpa [transposeT] using hclen
    rw [List.getD_eq_getElem _ _ h1, List.getElem_map]
    have h2 : c < (transposeT t).length := by
      simpa [transposeT] using hclen
    have h3 : (transposeT t)[c] = colOf t c := by
      simp [transposeT, colOf]
    rw [h3]

/-- **C9.** `solve` returns the first element of `solutions` (the no-solution
result `none` when the sequence is empty), and on the worked 6×3 example
`Puzzle([210, 144, 54, 135, 4, 49], [6615, 15552, 420])` it returns exactly the
documented table `[(7,6,5), (9,8,2), (3,9,2), (5,9,3), (1,4,1), (7,1,7)]`. -/
theorem c9_solve (p : Puzzle) :
    solve p = (solutions p).head? ∧
    solve ⟨[210, 144, 54, 135, 4, 49], [6615, 15552, 420]⟩ =
      some [[7, 6, 5], [9, 8, 2], [3, 9, 2], [5, 9, 3], [1, 4, 1], [7, 1, 7]] :=
  ⟨rfl, by decide⟩

theorem fill_rowFuel_spec : ∀ (k fuel : ℕ) (product : ℤ), k < fuel →
    fill_rowFuel fuel product k = some (fill_row product k) := by
  intro k
  induction k with
  | zero =>
    intro fuel product h
    match fuel, h with
    | f + 1, _ => rw [fill_rowFuel, fill_row]
  | succ k ih =>
    intro fuel product h
    match fuel, h with
    | f + 1, h =>
      have hk : k < f := by omega
      rw [fill_rowFuel]
      have hall := allSome_map_eq_some
        (fun d : ℕ => if product % (d : ℤ) = 0 then
          (fill_rowFuel f (product / (d : ℤ)) k).map fun L =>
            L.map fun rest => d :: rest
        else some [])
        (fun d : ℕ => if product % (d : ℤ) = 0 then
          (fill_row (product / (d : ℤ)) k).map fun rest => d :: rest
        else [])
        digitRange ?_
      · rw [hall, Option.map_some', fill_row, List.flatMap_def]
      · intro d _
        simp only
        by_cases hd : product % (d : ℤ) = 0
        · rw [if_pos hd, if_pos hd, ih f _ hk, Option.map_some']
        · rw [if_neg hd, if_neg hd]

theorem solutionsFuel_spec : ∀ (rps : List ℤ) (fuel : ℕ) (cols : List ℚ),
    rps.length < fuel →
    solutionsFuel fuel rps cols = some (solutionsAux rps cols) := by
  intro rps
  induction rps with
  | nil =>
    intro fuel cols h
    match fuel, h with
    | f + 1, _ => rw [solutionsFuel, solutionsAux]
  | cons rp rps ih =>
    intro fuel cols h
    match fuel, h with
    | f + 1, h =>
      have hk : rps.length < f := by
        simp only [List.length_cons] at h
        omega
      rw [solutionsFuel, solutionsAux]
      by_cases hall : (cols.all fun c => c.den == 1) = true
      · rw [if_pos hall, if_pos hall]
        have hmap := allSome_map_eq_some
          (fun row1 => (solutionsFuel f rps (divideCols cols row1)).map fun L =>
            L.map fun rows => row1 :: rows)
          (fun row1 => (solutionsAux rps (divideCols cols row1)).map fun rows =>
            row1 :: rows)
          (fill_row rp cols.length) ?_
        · rw [hmap, Option.map_some', List.flatMap_def]
        · intro row1 _
          simp only
          rw [ih f _ hk, Option.map_some']
      · rw [if_neg hall, if_neg hall]

/-- **C4 counterexample.** The divisibility test of `fill_row` is *not* exact
integer remainder arithmetic: it is the floating-point test
`(product / d).is_integer()`, and at `product = 2 ^ 60 + 1`, `d = 2` the
nearest double of the exact quotient `2 ^ 59 + 1/2` is the integer `2 ^ 59`,
so the test accepts `d = 2` even though `2` does not divide `2 ^ 60 + 1` —
the outcome is wrong for this large product. -/
theorem c4_counterexample :
    pyDivIsInteger (2 ^ 60 + 1) 2 = true ∧ ¬ ((2:ℤ) ∣ 2 ^ 60 + 1) :=
  ⟨by decide, by omega⟩

/-- **C4 amended.** The divisibility tests that prune the search are performed
with floating-point division and an integrality check (`(product / d)
.is_integer()` in `fill_row`, `c == int(c)` after `numpy.divide` in
`solutions`), not with exact integer remainder arithmetic.  The float test
never rejects a true divisor while the exact quotient is representable — for
`d ∣ p` with `1 ≤ p < 2 ^ 53` and a digit `d` it accepts — but its outcomes
are not exact for arbitrarily large products (`c4_counterexample`). -/
theorem c4_amended (p d : ℤ) (hdvd : d ∣ p) (hp1 : 1 ≤ p) (hp2 : p < 2 ^ 53)
    (hd1 : 1 ≤ d) :
    pyDivIsInteger p d = true := by
  obtain ⟨m, rfl⟩ := hdvd
  have hdne : (d : ℚ) ≠ 0 := by
    rw [Int.cast_ne_zero]
    omega
  have hm1 : 1 ≤ m := by
    by_contra hm
    push_neg at hm
    have hle : d * m ≤ 0 := mul_nonpos_iff.mpr (Or.inl ⟨by omega, by omega⟩)
    linarith
  have hm2 : m < 2 ^ 53 := by
    have hle : m ≤ d * m := le_mul_of_one_le_left (by omega) hd1
    linarith
  have hq : ((d * m : ℤ) : ℚ) / (d : ℚ) = ((m.toNat : ℕ) : ℚ) := by
    push_cast [Int.toNat_of_nonneg (show (0:ℤ) ≤ m by omega)]
    rw [mul_div_cancel_left₀ _ hdne]
    exact_mod_cast (Int.toNat_of_nonneg (show (0:ℤ) ≤ m by omega)).symm
  rw [pyDivIsInteger, hq, roundDouble_natCast m.toNat (by omega) (by omega),
    Rat.den_natCast]
  rfl

theorem c4_amended_witness :
    (2:ℤ) ∣ 6 ∧ (1:ℤ) ≤ 6 ∧ (6:ℤ) < 2 ^ 53 ∧ (1:ℤ) ≤ 2 ∧
      pyDivIsInteger 6 2 = true :=
  ⟨by decide, by decide, by decide, by decide,
   c4_amended 6 2 (by decide) (by decide) (by decide) (by decide)⟩

example : fill_row 210 3 = [[5, 6, 7], [5, 7, 6], [6, 5, 7], [6, 7, 5], [7, 5, 6], [7, 6, 5]] := by
  decide

example : fill_row 729 3 = [[9, 9, 9]] := by decide

example : fill_row 1 0 = [[]] ∧ fill_row 2 0 = [] := by decide

example : solve ⟨[2, 12], [3, 8]⟩ = some [[1, 2], [3, 4]] := by decide

example : solve ⟨[5], [5]⟩ = some [[5]] := by decide

example : solve ⟨[], [2]⟩ = none ∧ solve ⟨[], []⟩ = some [] := by decide

example : well_formed ⟨[7, 7], [7, 7]⟩ = false := by decide

example : well_formed ⟨[6, 120, 504], [28, 80, 162]⟩ = true := by decide

example : table_puzzle [[1, 2, 3], [4, 5, 6], [7, 8, 9]] = ⟨[6, 120, 504], [28, 80, 162]⟩ := by
  decide

example :
    solve ⟨[210, 144, 54, 135, 4, 49], [6615, 15552, 420]⟩ =
      some [[7, 6, 5], [9, 8, 2], [3, 9, 2], [5, 9, 3], [1, 4, 1], [7, 1, 7]] := by
  decide

end CrossProduct
